import Mathlib

/-!
Shallow embedding of `src/words_stat.cpp` (word-frequency counter with a
budgeted parallel merge sort) and proofs of the specification's claims.

Conventions of the embedding:
* C++ `std::string` values are byte lists (`List Nat`); `operator<` on
  `std::string` is the lexicographic order by byte value, embedded as
  `List.Lex (· < ·)`.
* `uint64_t` counts are `Nat` values; the only arithmetic performed on them
  by the program is the `+= 1` increment in the counting loop, embedded with
  an explicit `% 2 ^ 64` wrap.
* The `std::async` dispatch in `ParallelMergeSort` only affects scheduling,
  never which elements each recursive call sees (the two halves are disjoint
  index ranges joined before the merge), so the sorter is embedded as a plain
  recursive function on lists.
-/

open scoped List

/-- `StatsData` (words_stat.cpp lines 33–43): a word together with its
occurrence count. -/
structure StatsData where
  word : List Nat
  count : Nat
deriving DecidableEq

/-- `StatsData::operator<` (lines 39–42):
`(count > other.count) || ((count == other.count) && (word < other.word))`,
i.e. descending by count with ascending lexicographic-by-byte tie-break. -/
def statsLt (a b : StatsData) : Prop :=
  b.count < a.count ∨ (a.count = b.count ∧ List.Lex (· < ·) a.word b.word)

instance : DecidableRel statsLt := fun a b => by
  unfold statsLt; infer_instance

/-- The non-strict order induced by the comparator: `a` may precede `b`
in a range sorted with `statsLt` iff `¬ statsLt b a`. -/
def statsLe (a b : StatsData) : Prop := ¬ statsLt b a

instance : DecidableRel statsLe := fun a b => by
  unfold statsLe; infer_instance

theorem statsLt_asymm {a b : StatsData} (h : statsLt a b) : ¬ statsLt b a := by
  rcases h with h | ⟨hc, hw⟩
  · rintro (h' | ⟨hc', _⟩) <;> omega
  · rintro (h' | ⟨_, hw'⟩)
    · omega
    · exact IsAsymm.asymm _ _ hw hw'

theorem statsLt_irrefl (a : StatsData) : ¬ statsLt a a := fun h => statsLt_asymm h h

theorem statsLt_trans {a b c : StatsData} (hab : statsLt a b) (hbc : statsLt b c) :
    statsLt a c := by
  rcases hab with h | ⟨hc1, hw1⟩ <;> rcases hbc with h' | ⟨hc2, hw2⟩
  · exact Or.inl (by omega)
  · exact Or.inl (by omega)
  · exact Or.inl (by omega)
  · exact Or.inr ⟨by omega, IsTrans.trans _ _ _ hw1 hw2⟩

/-- If neither record compares less than the other, the records are equal:
the comparator is connected (a strict total order on records). -/
theorem statsLt_connex {a b : StatsData} (h1 : ¬ statsLt a b) (h2 : ¬ statsLt b a) :
    a = b := by
  unfold statsLt at h1 h2
  push_neg at h1 h2
  have hc : a.count = b.count := by omega
  have hw : a.word = b.word := by
    have htri : IsTrichotomous (List Nat) (List.Lex (· < ·)) := inferInstance
    rcases htri.trichotomous a.word b.word with h | h | h
    · exact absurd h (h1.2 hc)
    · exact h
    · exact absurd h (h2.2 hc.symm)
  cases a; cases b
  simp_all

theorem statsLe_iff {a b : StatsData} : statsLe a b ↔ statsLt a b ∨ a = b := by
  constructor
  · intro h
    by_cases h' : statsLt a b
    · exact Or.inl h'
    · exact Or.inr (statsLt_connex h' h)
  · rintro (h | rfl)
    · exact statsLt_asymm h
    · exact statsLt_irrefl a

instance : IsTotal StatsData statsLe :=
  ⟨fun a b => by
    by_cases h : statsLt b a
    · exact Or.inr (statsLt_asymm h)
    · exact Or.inl h⟩

instance : IsTrans StatsData statsLe :=
  ⟨fun a b c hab hbc => by
    rcases statsLe_iff.mp hab with h1 | rfl
    · rcases statsLe_iff.mp hbc with h2 | rfl
      · exact statsLe_iff.mpr (Or.inl (statsLt_trans h1 h2))
      · exact hab
    · exact hbc⟩

instance : IsAntisymm StatsData statsLe :=
  ⟨fun a b hab hba => by
    rcases statsLe_iff.mp hab with h1 | rfl
    · rcases statsLe_iff.mp hba with h2 | rfl
      · exact absurd h2 (statsLt_asymm h1)
      · rfl
    · rfl⟩

/-- Model of the sequential `std::sort(begin, end)` call (line 50) with the
`StatsData` comparator: a comparison sort whose output is `statsLe`-sorted and
a permutation of its input.  Because `statsLe` is total, transitive and
antisymmetric on `StatsData` (ties of the comparator are equal records), every
correct comparison sort produces this exact list. -/
def seqSort (l : List StatsData) : List StatsData := List.insertionSort statsLe l

/-- Model of `std::inplace_merge(begin, mid, end)` (line 58): stable merge of
two consecutive sorted ranges under `operator<`; an element of the right range
is emitted first only when it is strictly less than the left head. -/
def mergeStats : List StatsData → List StatsData → List StatsData
  | [], ys => ys
  | xs, [] => xs
  | x :: xs, y :: ys =>
    if statsLt y x then y :: mergeStats (x :: xs) ys
    else x :: mergeStats xs (y :: ys)
termination_by xs ys => xs.length + ys.length

/-- The guard of `ParallelMergeSort` (line 49): `len <= 1024 || N < 2`
selects the sequential base case. -/
def baseCaseCond (len N : Nat) : Prop := len ≤ 1024 ∨ N < 2

instance (len N : Nat) : Decidable (baseCaseCond len N) := by
  unfold baseCaseCond; infer_instance

/-- `ParallelMergeSort` (lines 45–59) on lists.  `N` is the parallelism
budget; `mid = begin + len / 2`; the async dispatch of the left half only
affects scheduling (the halves are disjoint ranges, joined before the merge),
so it is embedded as plain recursion. -/
def parallelMergeSort (l : List StatsData) (N : Nat) : List StatsData :=
  if baseCaseCond l.length N then seqSort l
  else
    mergeStats (parallelMergeSort (l.take (l.length / 2)) (N - 2))
               (parallelMergeSort (l.drop (l.length / 2)) (N - 2))
termination_by l.length
decreasing_by
  · simp only [List.length_take, baseCaseCond, not_or, not_lt, not_le] at *
    omega
  · simp only [List.length_drop, baseCaseCond, not_or, not_lt, not_le] at *
    omega

/-- The default budget argument (line 47):
`unsigned int N = std::thread::hardware_concurrency() / 2`. -/
def defaultBudget (hardwareConcurrency : Nat) : Nat := hardwareConcurrency / 2

theorem seqSort_sorted (l : List StatsData) : (seqSort l).Sorted statsLe :=
  List.sorted_insertionSort statsLe l

theorem seqSort_perm (l : List StatsData) : seqSort l ~ l :=
  List.perm_insertionSort statsLe l

theorem mergeStats_perm : ∀ xs ys : List StatsData, mergeStats xs ys ~ xs ++ ys := by
  intro xs ys
  induction xs, ys using mergeStats.induct with
  | case1 ys => simp [mergeStats]
  | case2 xs => simp [mergeStats]
  | case3 x xs y ys hlt ih =>
    rw [mergeStats, if_pos hlt]
    exact (ih.cons y).trans List.perm_middle.symm
  | case4 x xs y ys hlt ih =>
    rw [mergeStats, if_neg hlt]
    exact ih.cons x

theorem mergeStats_sorted : ∀ xs ys : List StatsData,
    xs.Sorted statsLe → ys.Sorted statsLe → (mergeStats xs ys).Sorted statsLe := by
  intro xs ys
  induction xs, ys using mergeStats.induct with
  | case1 ys => intro _ hy; simpa [mergeStats] using hy
  | case2 xs => intro hx _; cases xs <;> simp_all [mergeStats]
  | case3 x xs y ys hlt ih =>
    intro hx hy
    rw [mergeStats, if_pos hlt]
    rw [List.sorted_cons] at hy ⊢
    refine ⟨?_, ih hx hy.2⟩
    intro b hb
    have hb' : b ∈ (x :: xs) ++ ys := (mergeStats_perm _ _).subset hb
    have hyx : statsLe y x := statsLe_iff.mpr (Or.inl hlt)
    rcases List.mem_append.mp hb' with hb1 | hb2
    · rcases List.mem_cons.mp hb1 with rfl | hb1'
      · exact hyx
      · exact IsTrans.trans _ _ _ hyx ((List.sorted_cons.mp hx).1 b hb1')
    · exact hy.1 b hb2
  | case4 x xs y ys hlt ih =>
    intro hx hy
    rw [mergeStats, if_neg hlt]
    rw [List.sorted_cons] at hx ⊢
    refine ⟨?_, ih hx.2 hy⟩
    intro b hb
    have hb' : b ∈ xs ++ y :: ys := (mergeStats_perm _ _).subset hb
    have hxy : statsLe x y := hlt
    rcases List.mem_append.mp hb' with hb1 | hb2
    · exact hx.1 b hb1
    · rcases List.mem_cons.mp hb2 with rfl | hb2'
      · exact hxy
      · exact IsTrans.trans _ _ _ hxy ((List.sorted_cons.mp hy).1 b hb2')

theorem parallelMergeSort_perm : ∀ (l : List StatsData) (N : Nat),
    parallelMergeSort l N ~ l := by
  intro l N
  induction l, N using parallelMergeSort.induct with
  | case1 l N h => rw [parallelMergeSort, if_pos h]; exact seqSort_perm l
  | case2 l N h ih1 ih2 =>
    rw [parallelMergeSort, if_neg h]
    calc mergeStats (parallelMergeSort (l.take (l.length / 2)) (N - 2))
          (parallelMergeSort (l.drop (l.length / 2)) (N - 2))
        ~ parallelMergeSort (l.take (l.length / 2)) (N - 2) ++
          parallelMergeSort (l.drop (l.length / 2)) (N - 2) := mergeStats_perm _ _
      _ ~ l.take (l.length / 2) ++ l.drop (l.length / 2) := ih1.append ih2
      _ = l := List.take_append_drop _ l

theorem parallelMergeSort_sorted : ∀ (l : List StatsData) (N : Nat),
    (parallelMergeSort l N).Sorted statsLe := by
  intro l N
  induction l, N using parallelMergeSort.induct with
  | case1 l N h => rw [parallelMergeSort, if_pos h]; exact seqSort_sorted l
  | case2 l N h ih1 ih2 =>
    rw [parallelMergeSort, if_neg h]
    exact mergeStats_sorted _ _ ih1 ih2

/-- Two `statsLe`-sorted permutations of the same records are equal: with this
comparator, ties are identical records, so the sorted arrangement is unique. -/
theorem sorted_perm_unique {l₁ l₂ : List StatsData} (hp : l₁ ~ l₂)
    (h₁ : l₁.Sorted statsLe) (h₂ : l₂.Sorted statsLe) : l₁ = l₂ :=
  List.eq_of_perm_of_sorted hp h₁ h₂

theorem parallelMergeSort_eq_seqSort (l : List StatsData) (N : Nat) :
    parallelMergeSort l N = seqSort l :=
  sorted_perm_unique ((parallelMergeSort_perm l N).trans (seqSort_perm l).symm)
    (parallelMergeSort_sorted l N) (seqSort_sorted l)

/-- `std::isalpha` in the default "C" locale, applied to an input byte
(line 78): true exactly on the ASCII letters `A`–`Z` and `a`–`z`. -/
def isAlphaByte (b : Nat) : Bool := (65 ≤ b && b ≤ 90) || (97 ≤ b && b ≤ 122)

/-- `std::tolower` in the default "C" locale (line 79): maps `A`–`Z` to
`a`–`z` and leaves every other byte unchanged. -/
def toLowerByte (b : Nat) : Nat := if 65 ≤ b ∧ b ≤ 90 then b + 32 else b

/-- The word-count table `std::unordered_map<std::string, uint64_t>`,
embedded as an association list in first-insertion order.  The real map's
iteration order is unspecified; `pipeline_output_deterministic` shows the
final output is the same for every iteration order. -/
abbrev WordCountTable := List (List Nat × Nat)

/-- `words_to_stat_count[w] += 1` (lines 82 and 97): `operator[]` default-
constructs a zero count on a missing key, and the `uint64_t` increment wraps
at `2 ^ 64`. -/
def bumpCount (w : List Nat) : WordCountTable → WordCountTable
  | [] => [(w, (0 + 1) % 2 ^ 64)]
  | (w', c) :: rest =>
    if w' = w then (w', (c + 1) % 2 ^ 64) :: rest
    else (w', c) :: bumpCount w rest

/-- Lookup of a word's count in the table (the map's `find` semantics). -/
def lookupCount (w : List Nat) : WordCountTable → Option Nat
  | [] => none
  | (w', c) :: rest => if w' = w then some c else lookupCount w rest

/-- The flush step `if (current_word_stream.str() != "") { ...[str] += 1; }`
(lines 81–83 and 96–98). -/
def flushWord (cur : List Nat) (t : WordCountTable) : WordCountTable :=
  if cur = [] then t else bumpCount cur t

/-- The character loop of `ReadFileAndCountStats` (lines 77–98), including the
final flush after end-of-stream: `cur` is the pending candidate word held in
`current_word_stream`. -/
def countLoop : List Nat → List Nat → WordCountTable → WordCountTable
  | [], cur, t => flushWord cur t
  | b :: bs, cur, t =>
    if isAlphaByte b then countLoop bs (cur ++ [toLowerByte b]) t
    else countLoop bs [] (flushWord cur t)

/-- `ReadFileAndCountStats` (lines 61–101) on the byte stream of the input
file, starting from an empty candidate word and an empty table. -/
def readFileAndCountStats (input : List Nat) : WordCountTable :=
  countLoop input [] []

/-- Spec-side tokenization: the maximal runs of ASCII alphabetic bytes of the
input, case-folded to lowercase — accumulated byte by byte and emitted when a
non-alphabetic byte or the end of the stream is reached, exactly as §4.1 of
the specification describes the algorithm. -/
def tokensLoop : List Nat → List Nat → List (List Nat)
  | [], cur => if cur = [] then [] else [cur]
  | b :: bs, cur =>
    if isAlphaByte b then tokensLoop bs (cur ++ [toLowerByte b])
    else (if cur = [] then [] else [cur]) ++ tokensLoop bs []

/-- The alphabetic-run tokens of an input byte stream (spec side). -/
def tokens (input : List Nat) : List (List Nat) := tokensLoop input []

/-- The record-flattening loop of `ConvertAndSortStats` (lines 105–111): one
`StatsData` per table entry, in the table's iteration order. -/
def recordsOf (t : WordCountTable) : List StatsData :=
  t.map fun p => ⟨p.1, p.2⟩

/-- `ConvertAndSortStats` (lines 103–116): flatten the table and sort with the
default budget computed from the hardware concurrency `hw`. -/
def convertAndSortStats (t : WordCountTable) (hw : Nat) : List StatsData :=
  parallelMergeSort (recordsOf t) (defaultBudget hw)

/-- Decimal digit expansion used by `operator<<(std::ostream&, uint64_t)`;
the first argument is recursion fuel (always sufficient at `n + 1`). -/
def decimalDigitsAux : Nat → Nat → List Nat
  | 0, _ => []
  | fuel + 1, n => if n = 0 then [] else decimalDigitsAux fuel (n / 10) ++ [n % 10 + 48]

/-- ASCII decimal rendering of a count, as `out_file << stat.count` prints it. -/
def decimalBytes (n : Nat) : List Nat :=
  if n = 0 then [48] else decimalDigitsAux (n + 1) n

/-- One output line (line 130): `word`, one space, the decimal count, `'\n'`. -/
def statLine (s : StatsData) : List Nat :=
  s.word ++ [32] ++ decimalBytes s.count ++ [10]

/-- `WriteStatsToFile`'s output bytes (lines 128–137): the concatenation of
one line per record, in sequence order. -/
def writeStats (stats : List StatsData) : List Nat :=
  (stats.map statLine).flatten

/-- The observable outcome of one program run: the process exit status,
whether anything was printed to standard error, and the bytes written to the
output file (`none` when no complete output file was produced). -/
structure RunResult where
  exitStatus : Nat
  stderrDiagnostic : Bool
  output : Option (List Nat)
deriving DecidableEq

/-- `main` (lines 144–177).  The success or failure of the four fallible I/O
operations — opening the input file, reading it to the end, opening the
output file, writing all lines — is abstracted into the boolean parameters;
each failure prints a diagnostic to `std::cerr` before the `throw`, and every
`catch` in `main` ends in `return 0`, as does the usage error and success. -/
def mainModel (argc : Nat) (inputOpens readOk outputOpens writeOk : Bool)
    (input : List Nat) (hw : Nat) : RunResult :=
  if argc ≠ 3 then ⟨0, true, none⟩
  else if !inputOpens then ⟨0, true, none⟩
  else if !readOk then ⟨0, true, none⟩
  else
    let stats := convertAndSortStats (readFileAndCountStats input) hw
    if !outputOpens then ⟨0, true, none⟩
    else if !writeOk then ⟨0, true, none⟩
    else ⟨0, false, some (writeStats stats)⟩

theorem lookup_bumpCount_self (w : List Nat) : ∀ t : WordCountTable,
    lookupCount w (bumpCount w t) = some (((lookupCount w t).getD 0 + 1) % 2 ^ 64) := by
  intro t
  induction t with
  | nil => simp [bumpCount, lookupCount]
  | cons p rest ih =>
    obtain ⟨w', c⟩ := p
    by_cases h : w' = w
    · subst h; simp [bumpCount, lookupCount]
    · simp [bumpCount, lookupCount, h, ih]

theorem lookup_bumpCount_ne {w' w : List Nat} (hne : w' ≠ w) : ∀ t : WordCountTable,
    lookupCount w' (bumpCount w t) = lookupCount w' t := by
  intro t
  induction t with
  | nil => simp [bumpCount, lookupCount, Ne.symm hne]
  | cons p rest ih =>
    obtain ⟨w'', c⟩ := p
    by_cases h : w'' = w
    · simp [bumpCount, lookupCount, h, Ne.symm hne]
    · by_cases h2 : w'' = w' <;> simp [bumpCount, lookupCount, h, h2, hne, ih]

/-- Every count stored in the table is a `uint64_t` value, i.e. below `2 ^ 64`. -/
def TableWF (t : WordCountTable) : Prop :=
  ∀ w c, lookupCount w t = some c → c < 2 ^ 64

theorem tableWF_nil : TableWF [] := by
  intro w c h; simp [lookupCount] at h

theorem tableWF_bumpCount {t : WordCountTable} (h : TableWF t) (w : List Nat) :
    TableWF (bumpCount w t) := by
  intro w' c hl
  by_cases he : w' = w
  · subst he
    rw [lookup_bumpCount_self] at hl
    have hmod : ((lookupCount w' t).getD 0 + 1) % 2 ^ 64 < 2 ^ 64 :=
      Nat.mod_lt _ (by norm_num)
    simp only [Option.some.injEq] at hl
    omega
  · rw [lookup_bumpCount_ne he] at hl
    exact h _ _ hl

theorem countLoop_eq_foldl : ∀ (bs cur : List Nat) (t : WordCountTable),
    countLoop bs cur t = (tokensLoop bs cur).foldl (fun t w => bumpCount w t) t := by
  intro bs
  induction bs with
  | nil =>
    intro cur t
    by_cases h : cur = [] <;> simp [countLoop, tokensLoop, flushWord, h]
  | cons b bs ih =>
    intro cur t
    by_cases ha : isAlphaByte b
    · simp [countLoop, tokensLoop, ha, ih]
    · by_cases h : cur = [] <;>
        simp [countLoop, tokensLoop, ha, h, flushWord, ih, List.foldl_append]

theorem lookup_foldl_bump : ∀ (ts : List (List Nat)) (t : WordCountTable) (w : List Nat),
    TableWF t →
    lookupCount w (ts.foldl (fun t w => bumpCount w t) t) =
      if lookupCount w t = none ∧ ts.count w = 0 then none
      else some (((lookupCount w t).getD 0 + ts.count w) % 2 ^ 64) := by
  intro ts
  induction ts with
  | nil =>
    intro t w hwf
    cases hl : lookupCount w t with
    | none => simp [hl]
    | some c =>
      have hc := hwf w c hl
      simp [hl]
      omega
  | cons s ts ih =>
    intro t w hwf
    rw [List.foldl_cons, ih (bumpCount s t) w (tableWF_bumpCount hwf s)]
    by_cases he : s = w
    · subst he
      rw [lookup_bumpCount_self]
      simp only [List.count_cons_self, Option.getD_some, Nat.mod_add_mod]
      cases hl : lookupCount s t with
      | none => simp [hl, Nat.add_comm 1 (ts.count s)]
      | some c =>
        simp [hl, Nat.add_comm 1 (ts.count s), Nat.add_assoc]
    · rw [lookup_bumpCount_ne (fun h => he h.symm)]
      rw [List.count_cons_of_ne (fun h => he h.symm)]

theorem lookup_readFileAndCountStats (input w : List Nat) :
    lookupCount w (readFileAndCountStats input) =
      if (tokens input).count w = 0 then none
      else some ((tokens input).count w % 2 ^ 64) := by
  unfold readFileAndCountStats tokens
  rw [countLoop_eq_foldl, lookup_foldl_bump (tokensLoop input []) [] w tableWF_nil]
  simp [lookupCount]

theorem mem_keys_iff_lookup (w : List Nat) : ∀ t : WordCountTable,
    w ∈ t.map Prod.fst ↔ lookupCount w t ≠ none := by
  intro t
  induction t with
  | nil => simp [lookupCount]
  | cons p rest ih =>
    obtain ⟨w', c⟩ := p
    by_cases h : w' = w
    · subst h; simp [lookupCount]
    · simp [lookupCount, h, Ne.symm h, ih]

theorem mem_keys_bumpCount (w' w : List Nat) : ∀ t : WordCountTable,
    w' ∈ (bumpCount w t).map Prod.fst ↔ w' ∈ t.map Prod.fst ∨ w' = w := by
  intro t
  induction t with
  | nil => simp [bumpCount, eq_comm]
  | cons p rest ih =>
    obtain ⟨w'', c⟩ := p
    by_cases h : w'' = w
    · subst h; simp [bumpCount, eq_comm]; tauto
    · simp [bumpCount, h, ih]; tauto

theorem nodup_keys_bumpCount {t : WordCountTable}
    (hnd : (t.map Prod.fst).Nodup) (w : List Nat) :
    ((bumpCount w t).map Prod.fst).Nodup := by
  induction t with
  | nil => simp [bumpCount]
  | cons p rest ih =>
    obtain ⟨w', c⟩ := p
    simp only [List.map_cons, List.nodup_cons] at hnd
    by_cases h : w' = w
    · subst h; simpa [bumpCount] using hnd
    · simp only [bumpCount, h, if_false, List.map_cons, List.nodup_cons]
      refine ⟨?_, ih hnd.2⟩
      rw [mem_keys_bumpCount]
      rintro (hmem | rfl)
      · exact hnd.1 hmem
      · exact h rfl

theorem mem_keys_foldl_bump (w' : List Nat) : ∀ (ts : List (List Nat)) (t : WordCountTable),
    w' ∈ ((ts.foldl (fun t w => bumpCount w t) t).map Prod.fst) ↔
      w' ∈ t.map Prod.fst ∨ w' ∈ ts := by
  intro ts
  induction ts with
  | nil => simp
  | cons s ts ih =>
    intro t
    rw [List.foldl_cons, ih (bumpCount s t), mem_keys_bumpCount]
    simp only [List.mem_cons]
    tauto

theorem nodup_keys_foldl_bump : ∀ (ts : List (List Nat)) (t : WordCountTable),
    (t.map Prod.fst).Nodup → ((ts.foldl (fun t w => bumpCount w t) t).map Prod.fst).Nodup := by
  intro ts
  induction ts with
  | nil => intro t h; simpa using h
  | cons s ts ih =>
    intro t h
    exact ih (bumpCount s t) (nodup_keys_bumpCount h s)

theorem nodup_keys_readFileAndCountStats (input : List Nat) :
    ((readFileAndCountStats input).map Prod.fst).Nodup := by
  unfold readFileAndCountStats
  rw [countLoop_eq_foldl]
  exact nodup_keys_foldl_bump _ [] (by simp)

theorem mem_keys_readFileAndCountStats (input w : List Nat) :
    w ∈ (readFileAndCountStats input).map Prod.fst ↔ w ∈ tokens input := by
  unfold readFileAndCountStats tokens
  rw [countLoop_eq_foldl, mem_keys_foldl_bump]
  simp

theorem lookup_eq_of_mem : ∀ {t : WordCountTable}, (t.map Prod.fst).Nodup →
    ∀ {w : List Nat} {c : Nat}, (w, c) ∈ t → lookupCount w t = some c := by
  intro t
  induction t with
  | nil => intro _ w c h; simp at h
  | cons p rest ih =>
    intro hnd w c hm
    obtain ⟨w', c'⟩ := p
    simp only [List.map_cons, List.nodup_cons] at hnd
    rcases List.mem_cons.mp hm with heq | hmem
    · obtain ⟨rfl, rfl⟩ := Prod.mk.injEq .. ▸ heq
      simp_all [lookupCount]
    · have hwne : w' ≠ w := by
        rintro rfl
        exact hnd.1 (List.mem_map.mpr ⟨(w', c), hmem, rfl⟩)
      simp [lookupCount, hwne, ih hnd.2 hmem]

theorem entry_count_eq {input : List Nat} (hfit : (tokens input).length < 2 ^ 64)
    {w : List Nat} {c : Nat} (hm : (w, c) ∈ readFileAndCountStats input) :
    c = (tokens input).count w := by
  have hl := lookup_eq_of_mem (nodup_keys_readFileAndCountStats input) hm
  rw [lookup_readFileAndCountStats] at hl
  by_cases h0 : (tokens input).count w = 0
  · simp [h0] at hl
  · rw [if_neg h0] at hl
    have hlt : (tokens input).count w < 2 ^ 64 :=
      lt_of_le_of_lt (List.count_le_length _ _) hfit
    rw [Nat.mod_eq_of_lt hlt] at hl
    exact (Option.some.inj hl).symm

theorem keys_perm_dedup (input : List Nat) :
    (readFileAndCountStats input).map Prod.fst ~ (tokens input).dedup := by
  rw [List.perm_ext_iff_of_nodup (nodup_keys_readFileAndCountStats input)
    (List.nodup_dedup _)]
  intro w
  rw [mem_keys_readFileAndCountStats, List.mem_dedup]

theorem records_length_eq (input : List Nat) :
    (recordsOf (readFileAndCountStats input)).length = (tokens input).dedup.length := by
  have := (keys_perm_dedup input).length_eq
  simpa [recordsOf] using this

theorem count_beq_instance_irrel (x : List Nat) (l : List (List Nat)) :
    l.count x = @List.count (List Nat) instBEqOfDecidableEq x l := by
  induction l with
  | nil => rfl
  | cons a l ih =>
    rw [List.count_cons, @List.count_cons (List Nat) instBEqOfDecidableEq, ih]
    by_cases h : a = x <;> simp [h]

theorem records_counts_sum (input : List Nat) (hfit : (tokens input).length < 2 ^ 64) :
    ((recordsOf (readFileAndCountStats input)).map StatsData.count).sum =
      (tokens input).length := by
  have h1 : (recordsOf (readFileAndCountStats input)).map StatsData.count =
      (readFileAndCountStats input).map Prod.snd := by
    simp [recordsOf, List.map_map]
  have h2 : (readFileAndCountStats input).map Prod.snd =
      (readFileAndCountStats input).map (fun p => (tokens input).count p.1) :=
    List.map_congr_left fun p hp => entry_count_eq hfit hp
  have h3 : (readFileAndCountStats input).map (fun p => (tokens input).count p.1) =
      ((readFileAndCountStats input).map Prod.fst).map
        (fun w => (tokens input).count w) := by
    rw [List.map_map]; rfl
  have h4 := ((keys_perm_dedup input).map (fun w => (tokens input).count w)).sum_eq
  have h5 : (tokens input).dedup.map (fun w => (tokens input).count w) =
      (tokens input).dedup.map
        (fun w => @List.count (List Nat) instBEqOfDecidableEq w (tokens input)) :=
    List.map_congr_left fun w _ => count_beq_instance_irrel w (tokens input)
  rw [h1, h2, h3, h4, h5, List.sum_map_count_dedup_eq_length]

/-- Below the base-case threshold (or low budget) the sorter is exactly the
sequential sort. -/
theorem parallelMergeSort_base (l : List StatsData) (N : Nat)
    (h : baseCaseCond l.length N) : parallelMergeSort l N = seqSort l := by
  rw [parallelMergeSort, if_pos h]

/-- C1: for every input record sequence and every budget, the sequence
produced by the sorter is totally ordered end to end — every adjacent pair
(A, B) of the output satisfies `A.count > B.count`, or `A.count = B.count`
and `A.word ≤ B.word` lexicographically by byte value. -/
theorem sorter_output_totally_ordered (l : List StatsData) (N : Nat) :
    List.Chain' (fun a b => b.count < a.count ∨
      (a.count = b.count ∧ (a.word = b.word ∨ List.Lex (· < ·) a.word b.word)))
      (parallelMergeSort l N) := by
  have hs : (parallelMergeSort l N).Pairwise statsLe := parallelMergeSort_sorted l N
  refine List.Pairwise.chain' (List.Pairwise.imp ?_ hs)
  intro a b hab
  rcases statsLe_iff.mp hab with h | rfl
  · rcases h with h | ⟨hc, hw⟩
    · exact Or.inl h
    · exact Or.inr ⟨hc, Or.inr hw⟩
  · exact Or.inr ⟨rfl, Or.inl rfl⟩

/-- C2: the counting phase produces one table entry per distinct lowercased
alphabetic run, with the count of each entry equal to the run's number of
occurrences; hence the sorted output has one record per distinct word and its
counts sum to the total number of tokens.  The hypothesis keeps every
`uint64_t` count below its wrap-around point `2 ^ 64`, which always holds for
the in-memory files the program is specified for. -/
theorem counting_phase_correct (input : List Nat)
    (hfit : (tokens input).length < 2 ^ 64) :
    ((readFileAndCountStats input).map Prod.fst).Nodup ∧
    (∀ w, w ∈ (readFileAndCountStats input).map Prod.fst ↔ w ∈ tokens input) ∧
    (∀ w ∈ tokens input,
      lookupCount w (readFileAndCountStats input) = some ((tokens input).count w)) ∧
    (∀ N, (parallelMergeSort (recordsOf (readFileAndCountStats input)) N).length =
        (tokens input).dedup.length ∧
      ((parallelMergeSort (recordsOf (readFileAndCountStats input)) N).map
          StatsData.count).sum = (tokens input).length) := by
  refine ⟨nodup_keys_readFileAndCountStats input,
    fun w => mem_keys_readFileAndCountStats input w, ?_, ?_⟩
  · intro w hw
    rw [lookup_readFileAndCountStats]
    have h0 : (tokens input).count w ≠ 0 := fun hc =>
      (List.count_eq_zero.mp hc) hw
    rw [if_neg h0,
      Nat.mod_eq_of_lt (lt_of_le_of_lt (List.count_le_length _ _) hfit)]
  · intro N
    constructor
    · rw [(parallelMergeSort_perm _ N).length_eq, records_length_eq]
    · rw [((parallelMergeSort_perm _ N).map StatsData.count).sum_eq,
        records_counts_sum input hfit]

/-- C3: for every input record sequence and every parallelism budget, the
parallel merge sort's output is identical to the output of the purely
sequential sort under the same comparator — both below and above the
base-case threshold, since the statement is universally quantified over the
segment and the budget. -/
theorem parallel_sort_equals_sequential (l : List StatsData) (N : Nat) :
    parallelMergeSort l N = seqSort l :=
  parallelMergeSort_eq_seqSort l N

/-- C6: the sorter is idempotent — re-sorting an already sorted sequence,
under any budget, returns it unchanged. -/
theorem sorter_idempotent (l : List StatsData) (N M : Nat) :
    parallelMergeSort (parallelMergeSort l N) M = parallelMergeSort l N :=
  sorted_perm_unique (parallelMergeSort_perm (parallelMergeSort l N) M)
    (parallelMergeSort_sorted _ M) (parallelMergeSort_sorted l N)

/-- A segment of exactly the threshold length, used to separate the guard
`len <= 1024` of the source from the spec's phrase "below 1024". -/
def thresholdSegment : List StatsData := List.replicate 1024 ⟨[97], 1⟩

/-- A segment one past the threshold, on which the recursive case fires. -/
def overThresholdSegment : List StatsData := List.replicate 1025 ⟨[97], 1⟩

/-- C4 counterexample: at segment length exactly 1024 with budget 2, the code
takes the sequential base case (`len <= 1024` holds), although the claimed
condition "length below 1024 or budget below 2" is false there. -/
theorem base_case_at_threshold_counterexample :
    baseCaseCond thresholdSegment.length 2 ∧
    ¬ (thresholdSegment.length < 1024 ∨ 2 < 2) := by
  have hlen : thresholdSegment.length = 1024 := by
    rw [thresholdSegment, List.length_replicate]
  rw [baseCaseCond, hlen]
  omega

/-- C4 as amended: the sorter takes the sequential base case exactly when the
segment length is at most 1024 (not strictly below) or the budget is below 2;
otherwise it splits the segment at its midpoint and recurses on each half
with budget `N - 2`. -/
theorem sorter_base_and_recursive_cases :
    (∀ (l : List StatsData) (N : Nat), l.length ≤ 1024 ∨ N < 2 →
      parallelMergeSort l N = seqSort l) ∧
    (∀ (l : List StatsData) (N : Nat), ¬ (l.length ≤ 1024 ∨ N < 2) →
      parallelMergeSort l N =
        mergeStats (parallelMergeSort (l.take (l.length / 2)) (N - 2))
                   (parallelMergeSort (l.drop (l.length / 2)) (N - 2))) := by
  constructor
  · intro l N h
    exact parallelMergeSort_base l N h
  · intro l N h
    rw [parallelMergeSort, if_neg (show ¬ baseCaseCond l.length N from h)]

theorem sorter_base_and_recursive_cases_witness :
    parallelMergeSort thresholdSegment 2 = seqSort thresholdSegment ∧
    parallelMergeSort overThresholdSegment 2 =
      mergeStats
        (parallelMergeSort (overThresholdSegment.take (overThresholdSegment.length / 2))
          (2 - 2))
        (parallelMergeSort (overThresholdSegment.drop (overThresholdSegment.length / 2))
          (2 - 2)) :=
  ⟨sorter_base_and_recursive_cases.1 thresholdSegment 2
      (Or.inl (by rw [thresholdSegment, List.length_replicate])),
   sorter_base_and_recursive_cases.2 overThresholdSegment 2
      (by rw [overThresholdSegment, List.length_replicate]; omega)⟩

/-- The byte stream of the scenario input `"The cat sat. The CAT sat!"`. -/
def inputTheCatSat : List Nat := "The cat sat. The CAT sat!".data.map Char.toNat

/-- The byte content of the expected output file `cat 2\nsat 2\nthe 2\n`. -/
def outputTheCatSat : List Nat := "cat 2\nsat 2\nthe 2\n".data.map Char.toNat

/-- C5: on the input `"The cat sat. The CAT sat!"` the counting phase yields
the counts the:2, cat:2, sat:2, and — for every hardware concurrency — the
program writes exactly the lines `cat 2`, `sat 2`, `the 2` in that order,
each formatted as the word, a single space, the count and a newline. -/
theorem scenario_the_cat_sat :
    lookupCount ("the".data.map Char.toNat) (readFileAndCountStats inputTheCatSat)
        = some 2 ∧
    lookupCount ("cat".data.map Char.toNat) (readFileAndCountStats inputTheCatSat)
        = some 2 ∧
    lookupCount ("sat".data.map Char.toNat) (readFileAndCountStats inputTheCatSat)
        = some 2 ∧
    ∀ hw, writeStats (convertAndSortStats (readFileAndCountStats inputTheCatSat) hw)
        = outputTheCatSat := by
  refine ⟨by decide, by decide, by decide, fun hw => ?_⟩
  rw [convertAndSortStats,
    parallelMergeSort_base _ _ (Or.inl (by decide))]
  decide

/-- C7 counterexample: with 1 unit of available hardware parallelism the code
starts with budget `1 / 2 = 0`, not `max 1 (1 / 2) = 1` as claimed. -/
theorem initial_budget_counterexample :
    ¬ defaultBudget 1 = max 1 (1 / 2) := by decide

/-- C7 as amended: the initial parallelism budget is exactly
`hardware_concurrency / 2`, with no lower clamp to 1; the missing clamp never
changes the sorted output, because every budget below 2 already takes the
sequential path. -/
theorem initial_budget_is_half_concurrency :
    (∀ p, defaultBudget p = p / 2) ∧
    (∀ p (l : List StatsData),
      parallelMergeSort l (defaultBudget p) = parallelMergeSort l (max 1 (p / 2))) :=
  ⟨fun _ => rfl,
   fun p l => (parallelMergeSort_eq_seqSort l (defaultBudget p)).trans
     (parallelMergeSort_eq_seqSort l (max 1 (p / 2))).symm⟩

/-- C8: on every error path — wrong argument count, failure opening or
reading the input file, failure opening or writing the output file — the
program prints a diagnostic to standard error, and it terminates with exit
status 0 on every path, error or success alike. -/
theorem error_paths_exit_zero_with_diagnostic
    (argc : Nat) (inputOpens readOk outputOpens writeOk : Bool)
    (input : List Nat) (hw : Nat) :
    (mainModel argc inputOpens readOk outputOpens writeOk input hw).exitStatus = 0 ∧
    ((argc ≠ 3 ∨ inputOpens = false ∨ readOk = false ∨
        outputOpens = false ∨ writeOk = false) →
      (mainModel argc inputOpens readOk outputOpens writeOk input hw).stderrDiagnostic
        = true) := by
  by_cases h1 : argc = 3 <;>
    cases inputOpens <;> cases readOk <;> cases outputOpens <;> cases writeOk <;>
    simp [mainModel, h1]

theorem error_paths_exit_zero_with_diagnostic_witness :
    (mainModel 2 true true true true [] 4).exitStatus = 0 ∧
    (mainModel 2 true true true true [] 4).stderrDiagnostic = true :=
  ⟨(error_paths_exit_zero_with_diagnostic 2 true true true true [] 4).1,
   (error_paths_exit_zero_with_diagnostic 2 true true true true [] 4).2
     (Or.inl (by decide))⟩

/-- C9: the recursive case of the sorter fires only on segments strictly
longer than the 1024-element threshold, and then both the left half
`take (len / 2)` and the right half `drop (len / 2)` are non-empty and
strictly shorter than the segment — the well-founded measure justifying
termination for every finite segment and every budget. -/
theorem recursion_measure_decreases (l : List StatsData) (N : Nat)
    (h : ¬ baseCaseCond l.length N) :
    1024 < l.length ∧
    0 < (l.take (l.length / 2)).length ∧
    (l.take (l.length / 2)).length < l.length ∧
    0 < (l.drop (l.length / 2)).length ∧
    (l.drop (l.length / 2)).length < l.length := by
  rw [baseCaseCond, not_or] at h
  simp only [List.length_take, List.length_drop]
  omega

theorem recursion_measure_decreases_witness :
    1024 < overThresholdSegment.length ∧
    0 < (overThresholdSegment.take (overThresholdSegment.length / 2)).length ∧
    (overThresholdSegment.take (overThresholdSegment.length / 2)).length <
      overThresholdSegment.length ∧
    0 < (overThresholdSegment.drop (overThresholdSegment.length / 2)).length ∧
    (overThresholdSegment.drop (overThresholdSegment.length / 2)).length <
      overThresholdSegment.length :=
  recursion_measure_decreases overThresholdSegment 2
    (by rw [baseCaseCond, overThresholdSegment, List.length_replicate]; omega)

/-- C10: the final output bytes are a deterministic function of the input
bytes alone — whatever iteration order the hash map hands the records to the
sorter in, and whatever parallelism budget the scheduler's concurrency gives,
the serialized output is identical, because the comparator admits exactly one
sorted arrangement of the records. -/
theorem pipeline_output_deterministic (input : List Nat)
    (l₁ l₂ : List StatsData) (N₁ N₂ : Nat)
    (h₁ : l₁ ~ recordsOf (readFileAndCountStats input))
    (h₂ : l₂ ~ recordsOf (readFileAndCountStats input)) :
    writeStats (parallelMergeSort l₁ N₁) = writeStats (parallelMergeSort l₂ N₂) := by
  have hsorted : parallelMergeSort l₁ N₁ = parallelMergeSort l₂ N₂ :=
    sorted_perm_unique
      ((parallelMergeSort_perm l₁ N₁).trans
        ((h₁.trans h₂.symm).trans (parallelMergeSort_perm l₂ N₂).symm))
      (parallelMergeSort_sorted l₁ N₁) (parallelMergeSort_sorted l₂ N₂)
  rw [hsorted]

theorem pipeline_output_deterministic_witness :
    writeStats
        (parallelMergeSort (recordsOf (readFileAndCountStats inputTheCatSat)) 0) =
      writeStats
        (parallelMergeSort
          ((recordsOf (readFileAndCountStats inputTheCatSat)).reverse) 7) :=
  pipeline_output_deterministic inputTheCatSat _ _ 0 7 (List.Perm.refl _)
    (List.reverse_perm _)

/-- A small concrete input stream, `"ab ba ab"`, for exercising the counting
phase at an input whose token count trivially fits in a `uint64_t`. -/
def inputAbBa : List Nat := "ab ba ab".data.map Char.toNat

theorem counting_phase_correct_witness :
    (tokens inputAbBa).length < 2 ^ 64 ∧
    (((readFileAndCountStats inputAbBa).map Prod.fst).Nodup ∧
     (∀ w, w ∈ (readFileAndCountStats inputAbBa).map Prod.fst ↔ w ∈ tokens inputAbBa) ∧
     (∀ w ∈ tokens inputAbBa,
       lookupCount w (readFileAndCountStats inputAbBa) =
         some ((tokens inputAbBa).count w)) ∧
     (∀ N, (parallelMergeSort (recordsOf (readFileAndCountStats inputAbBa)) N).length =
         (tokens inputAbBa).dedup.length ∧
       ((parallelMergeSort (recordsOf (readFileAndCountStats inputAbBa)) N).map
           StatsData.count).sum = (tokens inputAbBa).length)) :=
  ⟨by decide, counting_phase_correct inputAbBa (by decide)⟩
